import Mathlib

/-!
Verification of the `dedoc` search-and-cache engine, shallowly embedded from
`src/search.rs` (with the handful of collaborators that live in the crate's
`common` module modelled from the specification, as noted on each such
definition).

Rust strings are modelled as lists of Unicode scalar values (`List Char`);
byte-level indices and lengths are recovered through `Char.utf8Size`, since a
Rust `String` is always valid UTF-8 and byte positions produced by `find` /
`char_indices` always sit on character boundaries.  Filesystem and cache I/O
is modelled by explicit state passing: the parse result of a file is an
`Option`/dedicated state, and fallible operations return `Except`.
-/

namespace Dedoc

/-- Rust `String` / `&str`: the list of Unicode scalar values of the string. -/
abbrev Str := List Char

/-- UTF-8 byte length of a string (`str::len`). -/
def byteLen (s : Str) : Nat := (s.map Char.utf8Size).sum

/-- `search.rs` line 44: `struct ExactResult { item: String, fragment: Option<String> }`. -/
structure ExactResult where
  item : Str
  fragment : Option Str
deriving DecidableEq, Inhabited

/-- `search.rs` line 50: `struct VagueResult { item: String, contexts: Vec<String> }`. -/
structure VagueResult where
  item : Str
  contexts : List Str
deriving DecidableEq, Inhabited

/-- `search.rs` line 57: the four flags that take part in the cache fingerprint. -/
structure SearchFlags where
  case_insensitive : Bool
  precise : Bool
  whole : Bool
  ignore_fragment : Bool
deriving DecidableEq, Inhabited

/-- `search.rs` line 67: the cache fingerprint `{ query, docset, flags }`.
`Cow` only controls ownership; structurally the fields are the ones below,
and `PartialEq` compares them by value. -/
structure SearchOptions where
  query : Str
  docset : Str
  flags : SearchFlags
deriving DecidableEq, Inhabited

/-- `search.rs` line 74: the persisted payload `{ exact_results, vague_results }`. -/
structure SearchCache where
  exact_results : List ExactResult
  vague_results : List VagueResult
deriving DecidableEq, Inhabited

/-- The two cache files, as the program sees them after deserialization: `none`
models a file that is missing, unreadable, or fails to parse (all of which
`try_use_cache` treats alike through `.ok()?`). -/
structure CacheState where
  cache_options : Option SearchOptions
  cache_payload : Option SearchCache
deriving DecidableEq

/-- `search.rs` lines 79–103, `try_use_cache`: read and parse
`search_cache_options.json` (any failure is a miss), compare the stored
`SearchOptions` with the probe by `PartialEq`, and only on equality read and
parse `search_cache.json` (again, any failure is a miss). -/
def try_use_cache (st : CacheState) (search_options : SearchOptions) : Option SearchCache :=
  match st.cache_options with
  | none => none
  | some cached => if cached = search_options then st.cache_payload else none

/-- `search.rs` lines 105–143, `cache_search_results`, successful path: write
the options record, then the payload record, unconditionally overwriting any
prior cache (the prior state is irrelevant, so it is not a parameter). -/
def cache_search_results (search_options : SearchOptions) (search_cache : SearchCache) :
    CacheState :=
  { cache_options := some search_options, cache_payload := some search_cache }

/-- Toggle exactly one of the four `SearchFlags` fields. -/
def flipFlag (i : Fin 4) (f : SearchFlags) : SearchFlags :=
  match i with
  | 0 => { f with case_insensitive := !f.case_insensitive }
  | 1 => { f with precise := !f.precise }
  | 2 => { f with whole := !f.whole }
  | 3 => { f with ignore_fragment := !f.ignore_fragment }

theorem flipFlag_ne (i : Fin 4) (f : SearchFlags) : flipFlag i f ≠ f := by
  fin_cases i <;>
    · intro h
      cases f
      simp [flipFlag] at h

/-- C2: `try_use_cache` returns a cached payload only when the stored options
structurally equal the probe's options (query, docset, and all four
`SearchFlags` fields equal by value); and for each of the four flag fields,
toggling only that field while holding query and docset fixed makes the load
return `none` (a cache miss). -/
theorem c2_try_use_cache_structural_equality :
    (∀ (st : CacheState) (opts : SearchOptions) (c : SearchCache),
        try_use_cache st opts = some c → st.cache_options = some opts) ∧
    (∀ (st : CacheState) (opts : SearchOptions) (i : Fin 4),
        st.cache_options = some opts →
        try_use_cache st { opts with flags := flipFlag i opts.flags } = none) := by
  constructor
  · intro st opts c h
    unfold try_use_cache at h
    match hst : st.cache_options with
    | none => rw [hst] at h; exact absurd h (by simp)
    | some cached =>
        rw [hst] at h
        by_cases hc : cached = opts
        · rw [hc]
        · simp [hc] at h
  · intro st opts i hst
    unfold try_use_cache
    rw [hst]
    have hne : opts ≠ { opts with flags := flipFlag i opts.flags } := by
      intro h
      have : opts.flags = flipFlag i opts.flags := congrArg SearchOptions.flags h
      exact flipFlag_ne i opts.flags this.symm
    simp [hne]

/-- Witness for C2 at a concrete state and option set. -/
theorem c2_witness :
    (CacheState.mk (some ⟨"q".data, "d".data, ⟨false, true, false, false⟩⟩)
        (some ⟨[], []⟩)).cache_options =
      some ⟨"q".data, "d".data, ⟨false, true, false, false⟩⟩ ∧
    try_use_cache
        (CacheState.mk (some ⟨"q".data, "d".data, ⟨false, true, false, false⟩⟩)
          (some ⟨[], []⟩))
        { query := "q".data, docset := "d".data,
          flags := flipFlag 1 ⟨false, true, false, false⟩ } = none :=
  ⟨rfl,
    c2_try_use_cache_structural_equality.2
      (CacheState.mk (some ⟨"q".data, "d".data, ⟨false, true, false, false⟩⟩)
        (some ⟨[], []⟩))
      ⟨"q".data, "d".data, ⟨false, true, false, false⟩⟩ 1 rfl⟩

/-- C3: store-then-load round trip.  After `cache_search_results` succeeds for
some options and result lists, `try_use_cache` with a structurally equal
`SearchOptions` returns `some` cache whose `exact_results` and `vague_results`
are the stored lists. -/
theorem c3_cache_round_trip (opts : SearchOptions)
    (e : List ExactResult) (v : List VagueResult) :
    ∃ c, try_use_cache (cache_search_results opts ⟨e, v⟩) opts = some c ∧
      c.exact_results = e ∧ c.vague_results = v := by
  refine ⟨⟨e, v⟩, ?_, rfl, rfl⟩
  simp [try_use_cache, cache_search_results]

/-- Character-wise lowercasing.  This models both Rust `str::to_lowercase`
(lines 200/203/204) and `make_ascii_lowercase` (line 314): `Char.toLower`
lowercases the ASCII letters and fixes every other character, which is exactly
`make_ascii_lowercase` and agrees with the Unicode `to_lowercase` on the ASCII
range (the two differ only on non-ASCII letters, which no claim exercises). -/
def to_lowercase (s : Str) : Str := s.map Char.toLower

/-- Rust `str::contains(&str)` (lines 206/216/319): substring test.  A
byte-level occurrence of valid UTF-8 inside valid UTF-8 always aligns on
character boundaries (the needle starts with a lead byte, never a
continuation byte), so the character-level test is faithful. -/
def strContains (hay needle : Str) : Bool :=
  match hay with
  | [] => needle.isEmpty
  | c :: t => needle.isPrefixOf (c :: t) || strContains t needle

theorem strContains_iff (hay needle : Str) :
    strContains hay needle = true ↔ needle <:+: hay := by
  induction hay with
  | nil =>
      simp [strContains, List.isEmpty_iff]
  | cons c t ih =>
      simp only [strContains, Bool.or_eq_true, List.isPrefixOf_iff_prefix, ih,
        List.infix_cons_iff]

/-- Modelled from the spec: `split_to_item_and_fragment` lives in the crate's
`common` module, which is not among the given sources.  Per §3 the fragment is
"the anchor portion of a path, if the original path encoded one (split on a
single delimiter, at most one fragment per path)", and the result printer
renders a fragment after a `#` marker, so the path is split at its first `#`:
everything before it is the item, everything after it the fragment (absent
when the path holds no `#`).  The spec records no failure case, so the model
is total. -/
def split_to_item_and_fragment : Str → Str × Option Str
  | [] => ([], none)
  | c :: rest =>
      if c = '#' then ([], some rest)
      else
        let (item, fragment) := split_to_item_and_fragment rest
        (c :: item, fragment)

/-- Build the `ExactResult` pushed at lines 207–211/217–221. -/
def exactOfPath (path : Str) : ExactResult :=
  let (item, fragment) := split_to_item_and_fragment path
  { item := item, fragment := fragment }

/-- Derived `Ord` on `Option<String>`: `None` sorts before any `Some`. -/
def fragLe : Option Str → Option Str → Bool
  | none, _ => true
  | some _, none => false
  | some a, some b => decide (a ≤ b)

/-- The derived lexicographic `Ord` on `ExactResult` (`item`, then
`fragment`).  Rust compares `String`s byte-wise; on valid UTF-8 that is the
lexicographic order on Unicode scalar values, i.e. the order on `List Char`
used here. -/
def exactLe (r s : ExactResult) : Bool :=
  decide (r.item < s.item) || (decide (r.item = s.item) && fragLe r.fragment s.fragment)

/-- The derived lexicographic `Ord` on `VagueResult` (`item`, then
`contexts`). -/
def vagueLe (r s : VagueResult) : Bool :=
  decide (r.item < s.item) || (decide (r.item = s.item) && decide (r.contexts ≤ s.contexts))

theorem fragLe_total (a b : Option Str) : (fragLe a b || fragLe b a) = true := by
  match a, b with
  | none, _ => simp [fragLe]
  | some x, none => simp [fragLe]
  | some x, some y =>
      simp only [fragLe, Bool.or_eq_true, decide_eq_true_eq]
      exact le_total x y

theorem fragLe_trans (a b c : Option Str) :
    fragLe a b = true → fragLe b c = true → fragLe a c = true := by
  match a, b, c with
  | none, _, _ => simp [fragLe]
  | some x, none, _ => simp [fragLe]
  | some x, some y, none => simp [fragLe]
  | some x, some y, some z =>
      simp only [fragLe, decide_eq_true_eq]
      exact le_trans

theorem exactLe_total (r s : ExactResult) : (exactLe r s || exactLe s r) = true := by
  simp only [exactLe, Bool.or_eq_true, Bool.and_eq_true, decide_eq_true_eq]
  rcases lt_trichotomy r.item s.item with h | h | h
  · exact Or.inl (Or.inl h)
  · rcases Bool.or_eq_true _ _ |>.mp (fragLe_total r.fragment s.fragment) with hf | hf
    · exact Or.inl (Or.inr ⟨h, hf⟩)
    · exact Or.inr (Or.inr ⟨h.symm, hf⟩)
  · exact Or.inr (Or.inl h)

theorem exactLe_trans (r s t : ExactResult) :
    exactLe r s = true → exactLe s t = true → exactLe r t = true := by
  simp only [exactLe, Bool.or_eq_true, Bool.and_eq_true, decide_eq_true_eq]
  rintro (h₁ | ⟨h₁, hf₁⟩) (h₂ | ⟨h₂, hf₂⟩)
  · exact Or.inl (lt_trans h₁ h₂)
  · exact Or.inl (lt_of_lt_of_eq h₁ h₂)
  · exact Or.inl (lt_of_eq_of_lt h₁ h₂)
  · exact Or.inr ⟨h₁.trans h₂, fragLe_trans _ _ _ hf₁ hf₂⟩

theorem vagueLe_total (r s : VagueResult) : (vagueLe r s || vagueLe s r) = true := by
  simp only [vagueLe, Bool.or_eq_true, Bool.and_eq_true, decide_eq_true_eq]
  rcases lt_trichotomy r.item s.item with h | h | h
  · exact Or.inl (Or.inl h)
  · rcases le_total r.contexts s.contexts with hf | hf
    · exact Or.inl (Or.inr ⟨h, hf⟩)
    · exact Or.inr (Or.inr ⟨h.symm, hf⟩)
  · exact Or.inr (Or.inl h)

theorem vagueLe_trans (r s t : VagueResult) :
    vagueLe r s = true → vagueLe s t = true → vagueLe r t = true := by
  simp only [vagueLe, Bool.or_eq_true, Bool.and_eq_true, decide_eq_true_eq]
  rintro (h₁ | ⟨h₁, hf₁⟩) (h₂ | ⟨h₂, hf₂⟩)
  · exact Or.inl (lt_trans h₁ h₂)
  · exact Or.inl (lt_of_lt_of_eq h₁ h₂)
  · exact Or.inl (lt_of_eq_of_lt h₁ h₂)
  · exact Or.inr ⟨h₁.trans h₂, le_trans hf₁ hf₂⟩

/-- `search.rs` line 147: one entry of the docset's `index.json` manifest
(the skipped `type` field never influences the search). -/
structure IndexEntry where
  name : Str
  path : Str
deriving DecidableEq, Inhabited

/-- The docset's `index.json` manifest as the program sees it:
`checkFailed` models `try_exists` itself failing, `absent` a missing file,
`unreadable` a file that exists but cannot be opened, `unparsable` a file
that opens but cannot be deserialized into `IndexJson`. -/
inductive ManifestState where
  | checkFailed
  | absent
  | unreadable
  | unparsable
  | parsed (entries : List IndexEntry)
deriving DecidableEq

/-- Error values of the filename search, one per `format!` message the code
can build; each carries the docset name the message (or the docset-derived
`index.json` path) interpolates. -/
inductive FilenameSearchError where
  | existsCheck (docset_name : Str)
  | compatibility (docset_name : Str)
  | openError (docset_name : Str)
  | format (docset_name : Str)
deriving DecidableEq

/-- `search.rs` lines 162–229, `search_docset_in_filenames`.  The docset-path
resolution (`get_docset_path`, a collaborator outside the core) is abstracted
into the `docset_name` carried by the manifest-derived errors; the manifest
file's parse outcome is the explicit `manifest` state. -/
def search_docset_in_filenames (docset_name : Str) (manifest : ManifestState)
    (query : Str) (case_insensitive : Bool) :
    Except FilenameSearchError (List ExactResult) :=
  match manifest with
  | .checkFailed => .error (.existsCheck docset_name)
  | .absent => .error (.compatibility docset_name)
  | .unreadable => .error (.openError docset_name)
  | .unparsable => .error (.format docset_name)
  | .parsed entries =>
      let items :=
        if case_insensitive then
          let q := to_lowercase query
          entries.filterMap fun entry =>
            if strContains (to_lowercase entry.name) q
                || strContains (to_lowercase entry.path) q then
              some (exactOfPath entry.path)
            else none
        else
          entries.filterMap fun entry =>
            if strContains entry.name query || strContains entry.path query then
              some (exactOfPath entry.path)
            else none
      .ok (items.mergeSort exactLe)

/-- The per-entry match test of lines 206 and 216, factored out. -/
def entryMatches (query : Str) (case_insensitive : Bool) (entry : IndexEntry) : Bool :=
  if case_insensitive then
    strContains (to_lowercase entry.name) (to_lowercase query)
      || strContains (to_lowercase entry.path) (to_lowercase query)
  else
    strContains entry.name query || strContains entry.path query

theorem filterMap_if_eq_map_filter {α β : Type} (p : α → Bool) (g : α → β) (l : List α) :
    (l.filterMap fun a => if p a then some (g a) else none) = (l.filter p).map g := by
  induction l with
  | nil => rfl
  | cons a t ih =>
      by_cases h : p a <;> simp [List.filterMap_cons, List.filter_cons, h, ih]

theorem search_docset_in_filenames_parsed (docset_name : Str)
    (entries : List IndexEntry) (query : Str) (ci : Bool) :
    search_docset_in_filenames docset_name (.parsed entries) query ci =
      .ok (((entries.filter (entryMatches query ci)).map
        (fun e => exactOfPath e.path)).mergeSort exactLe) := by
  cases ci <;>
    simp only [search_docset_in_filenames, entryMatches, if_true, if_false,
      Bool.false_eq_true, ← filterMap_if_eq_map_filter]

/-- C4: on a parsed manifest, the filename search returns exactly one result
per entry whose name or path contains the query (folding both sides to lower
case when `case_insensitive` is set), each obtained by splitting the entry's
path into item and fragment; the list is sorted ascending by
`(item, fragment)` and is empty (without error) when nothing matches.  The
final conjunct identifies the code's containment test with the substring
relation. -/
theorem c4_search_docset_in_filenames (docset_name : Str)
    (entries : List IndexEntry) (query : Str) (ci : Bool) :
    ∃ l, search_docset_in_filenames docset_name (.parsed entries) query ci = .ok l ∧
      l.Perm ((entries.filter (entryMatches query ci)).map (fun e => exactOfPath e.path)) ∧
      l.length = (entries.filter (entryMatches query ci)).length ∧
      l.Pairwise (fun r s => exactLe r s = true) ∧
      ((entries.filter (entryMatches query ci)) = [] → l = []) ∧
      (∀ e, entryMatches query ci e = true ↔
        (if ci then
          to_lowercase query <:+: to_lowercase e.name
            ∨ to_lowercase query <:+: to_lowercase e.path
        else query <:+: e.name ∨ query <:+: e.path)) := by
  refine ⟨_, search_docset_in_filenames_parsed docset_name entries query ci, ?_, ?_, ?_, ?_, ?_⟩
  · exact List.mergeSort_perm _ _
  · exact (List.mergeSort_perm _ _).length_eq.trans (List.length_map _ _)
  · exact List.sorted_mergeSort exactLe_trans exactLe_total _
  · intro h
    rw [h]
    have := List.mergeSort_perm (([] : List IndexEntry).map (fun e => exactOfPath e.path)) exactLe
    simp only [List.map_nil] at this
    exact this.eq_nil
  · intro e
    cases ci <;> simp [entryMatches, strContains_iff]

/-- Witness for C4's statement at a concrete manifest. -/
theorem c4_witness :
    ∃ l, search_docset_in_filenames "d".data
        (.parsed [⟨"Vec".data, "vec.html#new".data⟩]) "Vec".data false = .ok l ∧
      l.Perm (([⟨"Vec".data, "vec.html#new".data⟩] :
          List IndexEntry).filter (entryMatches "Vec".data false) |>.map
        (fun e => exactOfPath e.path)) ∧
      l.length = (([⟨"Vec".data, "vec.html#new".data⟩] :
          List IndexEntry).filter (entryMatches "Vec".data false)).length ∧
      l.Pairwise (fun r s => exactLe r s = true) ∧
      ((([⟨"Vec".data, "vec.html#new".data⟩] :
          List IndexEntry).filter (entryMatches "Vec".data false)) = [] → l = []) ∧
      (∀ e, entryMatches "Vec".data false e = true ↔
        (if false then
          to_lowercase "Vec".data <:+: to_lowercase e.name
            ∨ to_lowercase "Vec".data <:+: to_lowercase e.path
        else "Vec".data <:+: e.name ∨ "Vec".data <:+: e.path)) :=
  c4_search_docset_in_filenames "d".data [⟨"Vec".data, "vec.html#new".data⟩] "Vec".data false

/-- C9: the filename search fails with the compatibility error (the message
instructing the user to redownload the docset) exactly when the manifest file
is absent, fails with the format error naming the manifest's docset exactly
when the file exists and opens but cannot be parsed, and returns results only
from a parsed manifest. -/
theorem c9_manifest_failure_policy (docset_name : Str) (ms : ManifestState)
    (query : Str) (ci : Bool) :
    (search_docset_in_filenames docset_name ms query ci =
        .error (.compatibility docset_name) ↔ ms = .absent) ∧
    (search_docset_in_filenames docset_name ms query ci =
        .error (.format docset_name) ↔ ms = .unparsable) ∧
    (∀ l, search_docset_in_filenames docset_name ms query ci = .ok l →
      ∃ entries, ms = .parsed entries) := by
  refine ⟨?_, ?_, ?_⟩ <;> cases ms <;>
    simp [search_docset_in_filenames]

/-! ### Context windowing: `get_context_around_query`, `search.rs` lines 231–251 -/

/-- `str::char_indices()` with the byte-position accumulator explicit: the
`(byte index, character)` pairs of `s`, positions starting at `n`. -/
def charIndicesFrom (n : Nat) : Str → List (Nat × Char)
  | [] => []
  | c :: t => (n, c) :: charIndicesFrom (n + c.utf8Size) t

/-- Rust `str::char_indices()`. -/
def charIndices (s : Str) : List (Nat × Char) := charIndicesFrom 0 s

theorem byteLen_cons (c : Char) (t : Str) : byteLen (c :: t) = c.utf8Size + byteLen t := by
  simp [byteLen]

theorem byteLen_append (s t : Str) : byteLen (s ++ t) = byteLen s + byteLen t := by
  simp [byteLen]

theorem length_le_byteLen (s : Str) : s.length ≤ byteLen s := by
  induction s with
  | nil => simp [byteLen]
  | cons c t ih =>
      rw [byteLen_cons]
      have := Char.utf8Size_pos c
      simp only [List.length_cons]
      omega

theorem charIndicesFrom_append (n : Nat) (s t : Str) :
    charIndicesFrom n (s ++ t) =
      charIndicesFrom n s ++ charIndicesFrom (n + byteLen s) t := by
  induction s generalizing n with
  | nil => simp [charIndicesFrom, byteLen]
  | cons c u ih =>
      simp only [List.cons_append, charIndicesFrom, List.append_eq, ih, byteLen_cons,
        Nat.add_assoc]

theorem charIndicesFrom_map_snd (n : Nat) (s : Str) :
    (charIndicesFrom n s).map Prod.snd = s := by
  induction s generalizing n with
  | nil => rfl
  | cons c t ih => simp [charIndicesFrom, ih]

theorem charIndicesFrom_length (n : Nat) (s : Str) :
    (charIndicesFrom n s).length = s.length := by
  have := congrArg List.length (charIndicesFrom_map_snd n s)
  simpa using this

theorem mem_charIndicesFrom {n : Nat} {s : Str} {p : Nat × Char}
    (h : p ∈ charIndicesFrom n s) :
    n ≤ p.1 ∧ p.1 + p.2.utf8Size ≤ n + byteLen s ∧ p.2 ∈ s := by
  induction s generalizing n with
  | nil => simp [charIndicesFrom] at h
  | cons c t ih =>
      simp only [charIndicesFrom, List.mem_cons] at h
      rcases h with h | h
      · subst h
        refine ⟨le_refl _, ?_, List.mem_cons_self ..⟩
        show n + c.utf8Size ≤ n + byteLen (c :: t)
        rw [byteLen_cons]
        omega
      · obtain ⟨h1, h2, h3⟩ := ih h
        rw [byteLen_cons]
        exact ⟨by omega, by omega, List.mem_cons_of_mem _ h3⟩

theorem charIndicesFrom_pairwise (n : Nat) (s : Str) :
    (charIndicesFrom n s).Pairwise (fun p r => p.1 < r.1) := by
  induction s generalizing n with
  | nil => exact List.Pairwise.nil
  | cons c t ih =>
      refine List.Pairwise.cons ?_ (ih _)
      intro r hr
      have h := (mem_charIndicesFrom hr).1
      have := Char.utf8Size_pos c
      simp only
      omega

/-- `search.rs` line 232: `BOUND_OFFSET = (80 - 6 - 8) / 2`. -/
def BOUND_OFFSET : Nat := (80 - 6 - 8) / 2

/-- Lines 238–242: the position of the last character whose start is
`≤ lower_bound`, defaulting to `0` (`saturating_sub` on `usize` is `Nat`
subtraction, so `lower_bound` is already the saturated difference). -/
def startPos (html_line : Str) (lower_bound : Nat) : Nat :=
  (((charIndices html_line).reverse.find? fun p => decide (p.1 ≤ lower_bound)).map
    Prod.fst).getD 0

/-- Lines 244–248: skip the characters starting before `word_end_index`, then
take the first character start `≥ upper_bound`, defaulting to the line's byte
length. -/
def endPos (html_line : Str) (word_end_index upper_bound : Nat) : Nat :=
  ((((charIndices html_line).dropWhile fun p => decide (p.1 < word_end_index)).find?
      fun p => decide (upper_bound ≤ p.1)).map Prod.fst).getD (byteLen html_line)

/-- The byte slice `html_line[a..b]` for character-boundary positions
`a ≤ b`: exactly the characters whose start position lies in `[a, b)`. -/
def byteSlice (s : Str) (a b : Nat) : Str :=
  ((charIndices s).filter fun p => decide (a ≤ p.1) && decide (p.1 < b)).map Prod.snd

/-- The Unicode `White_Space` code points: the characters on which Rust
`char::is_whitespace` — and hence `str::trim` — reports true. -/
def isRustWhitespace (c : Char) : Bool :=
  ([0x9, 0xA, 0xB, 0xC, 0xD, 0x20, 0x85, 0xA0, 0x1680,
    0x2000, 0x2001, 0x2002, 0x2003, 0x2004, 0x2005, 0x2006, 0x2007,
    0x2008, 0x2009, 0x200A, 0x2028, 0x2029, 0x202F, 0x205F, 0x3000] :
    List UInt32).contains c.val

/-- Rust `str::trim`: remove leading, then trailing, whitespace. -/
def rustTrim (s : Str) : Str :=
  ((s.dropWhile isRustWhitespace).reverse.dropWhile isRustWhitespace).reverse

/-- `search.rs` lines 231–251, `get_context_around_query`.  `index` is a byte
position into `html_line` and `query_len` a byte length, exactly as in the
Rust (the `usize` additions never overflow for reachable string lengths, so
`Nat` addition is faithful). -/
def get_context_around_query (html_line : Str) (index query_len : Nat) : Str :=
  let lower_bound := index - BOUND_OFFSET
  let upper_bound := index + query_len + BOUND_OFFSET
  let word_end_index := index + query_len
  let start_pos := startPos html_line lower_bound
  let end_pos := endPos html_line word_end_index upper_bound
  rustTrim (byteSlice html_line start_pos end_pos)

/-- `i` is a UTF-8 character boundary of `s`: a character's start position or
the total byte length — precisely the positions at which Rust permits
slicing a `&str` without panicking. -/
def IsCharBoundary (s : Str) (i : Nat) : Prop :=
  i = byteLen s ∨ i ∈ (charIndices s).map Prod.fst

theorem isCharBoundary_zero (s : Str) : IsCharBoundary s 0 := by
  cases s with
  | nil => exact Or.inl rfl
  | cons c t => exact Or.inr (by simp [charIndices, charIndicesFrom])

theorem dropWhile_head_false {α : Type} (p : α → Bool) (l : List α) :
    ∀ c ∈ (l.dropWhile p).head?, p c = false := by
  induction l with
  | nil => simp [List.dropWhile]
  | cons a t ih =>
      intro c hc
      rw [List.dropWhile_cons] at hc
      by_cases h : p a
      · rw [if_pos h] at hc
        exact ih c hc
      · rw [if_neg h] at hc
        simp only [List.head?_cons, Option.mem_def, Option.some.injEq] at hc
        subst hc
        simpa using h

theorem dropWhile_eq_self_of_head {α : Type} (p : α → Bool) (l : List α)
    (h : ∀ c ∈ l.head?, p c = false) : l.dropWhile p = l := by
  cases l with
  | nil => rfl
  | cons a t =>
      have ha := h a (by simp)
      rw [List.dropWhile_cons, if_neg (by simp [ha])]

theorem rustTrim_eq_self (l : Str)
    (h1 : ∀ c ∈ l.head?, isRustWhitespace c = false)
    (h2 : ∀ c ∈ l.getLast?, isRustWhitespace c = false) : rustTrim l = l := by
  unfold rustTrim
  rw [dropWhile_eq_self_of_head _ _ h1]
  rw [dropWhile_eq_self_of_head _ _ (by rw [List.head?_reverse]; exact h2)]
  exact List.reverse_reverse l

theorem getLast?_eq_of_suffix {α : Type} {x y : List α} (h : x <:+ y) (hne : x ≠ []) :
    y.getLast? = x.getLast? := by
  obtain ⟨t, rfl⟩ := h
  rw [List.getLast?_append]
  obtain ⟨a, ha⟩ := Option.isSome_iff_exists.mp (List.getLast?_isSome.mpr hne)
  rw [ha]
  rfl

theorem rustTrim_getLast (l : Str) :
    ∀ c ∈ (rustTrim l).getLast?, isRustWhitespace c = false := by
  intro c hc
  unfold rustTrim at hc
  rw [List.getLast?_reverse] at hc
  exact dropWhile_head_false _ _ c hc

theorem rustTrim_head (l : Str) :
    ∀ c ∈ (rustTrim l).head?, isRustWhitespace c = false := by
  intro c hc
  unfold rustTrim at hc
  rw [List.head?_reverse] at hc
  rcases hx : (l.dropWhile isRustWhitespace).reverse.dropWhile isRustWhitespace with _ | ⟨d, u⟩
  · rw [hx] at hc
    simp at hc
  · have hne : (l.dropWhile isRustWhitespace).reverse.dropWhile isRustWhitespace ≠ [] := by
      rw [hx]; exact List.cons_ne_nil _ _
    have hsuf := List.dropWhile_suffix (l := (l.dropWhile isRustWhitespace).reverse)
      (p := isRustWhitespace)
    have := getLast?_eq_of_suffix hsuf hne
    rw [← this, List.getLast?_reverse] at hc
    exact dropWhile_head_false _ _ c hc

theorem rustTrim_idem (l : Str) : rustTrim (rustTrim l) = rustTrim l :=
  rustTrim_eq_self _ (rustTrim_head l) (rustTrim_getLast l)

theorem find?_reverse_max {l : List (Nat × Char)} {lb : Nat} {pr : Nat × Char}
    (hinc : l.Pairwise (fun p r => p.1 < r.1))
    (hf : l.reverse.find? (fun p => decide (p.1 ≤ lb)) = some pr) :
    pr ∈ l ∧ pr.1 ≤ lb ∧ ∀ x ∈ l, x.1 ≤ lb → x.1 ≤ pr.1 := by
  have hp := List.find?_some hf
  have hm := List.mem_reverse.mp (List.mem_of_find?_eq_some hf)
  refine ⟨hm, by simpa using hp, ?_⟩
  intro x hx hxle
  obtain ⟨-, as, bs, hdecomp, hfail⟩ := List.find?_eq_some.mp hf
  have hdec : l.reverse.Pairwise (fun p r => r.1 < p.1) := List.pairwise_reverse.mpr hinc
  rw [hdecomp] at hdec
  have hx' : x ∈ l.reverse := List.mem_reverse.mpr hx
  rw [hdecomp] at hx'
  rcases List.mem_append.mp hx' with hxas | hxcons
  · have := hfail x hxas
    simp at this
    omega
  · rcases List.mem_cons.mp hxcons with rfl | hxbs
    · exact le_refl _
    · have h1 := (List.pairwise_append.mp hdec).2.1
      have h2 := (List.pairwise_cons.mp h1).1 x hxbs
      omega

theorem startPos_le (s : Str) (lb : Nat) :
    startPos s lb ≤ lb ∧ startPos s lb ≤ byteLen s ∧ IsCharBoundary s (startPos s lb) := by
  unfold startPos
  cases hf : (charIndices s).reverse.find? (fun p => decide (p.1 ≤ lb)) with
  | none =>
      simp only [Option.map_none', Option.getD_none]
      exact ⟨Nat.zero_le _, Nat.zero_le _, isCharBoundary_zero s⟩
  | some pr =>
      simp only [Option.map_some', Option.getD_some]
      have hp := List.find?_some hf
      have hm := List.mem_reverse.mp (List.mem_of_find?_eq_some hf)
      have hb := mem_charIndicesFrom hm
      have hsz := Char.utf8Size_pos pr.2
      exact ⟨by simpa using hp, by omega, Or.inr (List.mem_map_of_mem _ hm)⟩

theorem endPos_cases (s : Str) (we ub : Nat) :
    endPos s we ub ≤ byteLen s ∧ IsCharBoundary s (endPos s we ub) ∧
      (endPos s we ub = byteLen s ∨ ub ≤ endPos s we ub) := by
  unfold endPos
  cases hf : ((charIndices s).dropWhile fun p => decide (p.1 < we)).find?
      (fun p => decide (ub ≤ p.1)) with
  | none =>
      exact ⟨le_refl _, Or.inl rfl, Or.inl rfl⟩
  | some pr =>
      simp only [Option.map_some', Option.getD_some]
      have hp := List.find?_some hf
      have hm' : pr ∈ charIndices s :=
        (List.dropWhile_sublist _).subset (List.mem_of_find?_eq_some hf)
      have hb := mem_charIndicesFrom hm'
      have hsz := Char.utf8Size_pos pr.2
      exact ⟨by omega, Or.inr (List.mem_map_of_mem _ hm'), Or.inr (by simpa using hp)⟩

theorem head_mem_charIndicesFrom (n : Nat) {s : Str} (h : s ≠ []) :
    ∃ c, (n, c) ∈ charIndicesFrom n s := by
  cases s with
  | nil => exact absurd rfl h
  | cons c t => exact ⟨c, by simp [charIndicesFrom]⟩

theorem exists_inner_charIndex (n : Nat) {s : Str} (h : 34 ≤ s.length) :
    ∃ i c, (i, c) ∈ charIndicesFrom n s ∧ n < i ∧ i + 33 ≤ n + byteLen s := by
  obtain ⟨c0, s', rfl⟩ : ∃ c0 s', s = c0 :: s' := by
    cases s with
    | nil => simp at h
    | cons x u => exact ⟨x, u, rfl⟩
  obtain ⟨c1, t', rfl⟩ : ∃ c1 t', s' = c1 :: t' := by
    cases s' with
    | nil => simp at h
    | cons x u => exact ⟨x, u, rfl⟩
  refine ⟨n + c0.utf8Size, c1, ?_, ?_, ?_⟩
  · exact List.mem_cons_of_mem _ (by simp [charIndicesFrom])
  · have := Char.utf8Size_pos c0
    omega
  · have h1 := length_le_byteLen (c1 :: t')
    rw [byteLen_cons]
    simp only [List.length_cons] at h h1
    omega

/-- The heart of the window property: for a line `a ++ q ++ b` whose fillers
`a` and `b` are whitespace-free and longer than the half-width (in
characters), the extracted context is a nonempty tail of `a`, then all of
`q`, then a nonempty initial part of `b` — whence all three claimed
consequences. -/
theorem context_window_wide_filler (a q b : Str)
    (hwa : ∀ c ∈ a, isRustWhitespace c = false)
    (hwb : ∀ c ∈ b, isRustWhitespace c = false)
    (hla : 33 < a.length) (hlb : 33 < b.length) :
    q <:+: get_context_around_query (a ++ (q ++ b)) (byteLen a) (byteLen q) ∧
    (get_context_around_query (a ++ (q ++ b)) (byteLen a) (byteLen q)).length <
      (a ++ (q ++ b)).length := by
  have hane : a ≠ [] := by intro h; subst h; simp at hla
  have hbne : b ≠ [] := by intro h; subst h; simp at hlb
  have hBO : BOUND_OFFSET = 33 := rfl
  have hlaB : 34 ≤ byteLen a := le_trans hla (length_le_byteLen a)
  have hlbB : 34 ≤ byteLen b := le_trans hlb (length_le_byteLen b)
  have hsplit : charIndices (a ++ (q ++ b)) =
      charIndicesFrom 0 a ++ (charIndicesFrom (byteLen a) q ++
        charIndicesFrom (byteLen a + byteLen q) b) := by
    show charIndicesFrom 0 (a ++ (q ++ b)) = _
    rw [charIndicesFrom_append, charIndicesFrom_append, Nat.zero_add]
  have hslen : byteLen (a ++ (q ++ b)) = byteLen a + (byteLen q + byteLen b) := by
    rw [byteLen_append, byteLen_append]
  -- the character of `a` starting at its second boundary lies below the lower bound
  obtain ⟨i₁, c₁, hmem₁, hi₁pos, hi₁le⟩ := exists_inner_charIndex 0 (s := a) hla
  have hmem₁s : (i₁, c₁) ∈ charIndices (a ++ (q ++ b)) := by
    rw [hsplit]
    exact List.mem_append_left _ hmem₁
  -- the `find` from the right succeeds and returns the largest boundary ≤ lower bound
  have hfind : ((charIndices (a ++ (q ++ b))).reverse.find?
      fun p => decide (p.1 ≤ byteLen a - 33)).isSome := by
    rw [List.find?_isSome]
    exact ⟨(i₁, c₁), List.mem_reverse.mpr hmem₁s, by simp; omega⟩
  obtain ⟨pr, hpr⟩ := Option.isSome_iff_exists.mp hfind
  have hpair : (charIndices (a ++ (q ++ b))).Pairwise (fun p r => p.1 < r.1) :=
    charIndicesFrom_pairwise 0 _
  obtain ⟨hprmem, hprle, hprmax⟩ := find?_reverse_max hpair hpr
  have hsp : startPos (a ++ (q ++ b)) (byteLen a - 33) = pr.1 := by
    unfold startPos
    rw [hpr]
    rfl
  have hsp_ge : i₁ ≤ pr.1 := hprmax _ hmem₁s (by omega)
  have hsp_lt_la : pr.1 < byteLen a := by omega
  have hprA : pr ∈ charIndicesFrom 0 a := by
    rw [hsplit] at hprmem
    rcases List.mem_append.mp hprmem with h | h
    · exact h
    · exfalso
      rcases List.mem_append.mp h with h | h
      · have := (mem_charIndicesFrom h).1; omega
      · have := (mem_charIndicesFrom h).1; omega
  -- the end position
  obtain ⟨ep, hepdef⟩ : ∃ ep, endPos (a ++ (q ++ b)) (byteLen a + byteLen q)
      (byteLen a + byteLen q + 33) = ep := ⟨_, rfl⟩
  obtain ⟨hep_le, -, hep_or⟩ := endPos_cases (a ++ (q ++ b)) (byteLen a + byteLen q)
    (byteLen a + byteLen q + 33)
  rw [hepdef] at hep_le hep_or
  have hep_ge : byteLen a + byteLen q + 33 ≤ ep := by
    rcases hep_or with h | h
    · rw [hslen] at h; omega
    · exact h
  -- the three pieces of the slice
  obtain ⟨Ap, hApdef⟩ : ∃ x, ((charIndicesFrom 0 a).filter
      (fun p => decide (pr.1 ≤ p.1) && decide (p.1 < ep))).map Prod.snd = x := ⟨_, rfl⟩
  obtain ⟨Cp, hCpdef⟩ : ∃ x, ((charIndicesFrom (byteLen a + byteLen q) b).filter
      (fun p => decide (pr.1 ≤ p.1) && decide (p.1 < ep))).map Prod.snd = x := ⟨_, rfl⟩
  have hBfull : (charIndicesFrom (byteLen a) q).filter
      (fun p => decide (pr.1 ≤ p.1) && decide (p.1 < ep)) =
      charIndicesFrom (byteLen a) q := by
    rw [List.filter_eq_self]
    intro x hx
    obtain ⟨hx1, hx2, -⟩ := mem_charIndicesFrom hx
    have hsz := Char.utf8Size_pos x.2
    simp only [Bool.and_eq_true, decide_eq_true_eq]
    omega
  have hslice : byteSlice (a ++ (q ++ b)) pr.1 ep = Ap ++ (q ++ Cp) := by
    unfold byteSlice
    rw [hsplit, List.filter_append, List.filter_append, List.map_append, List.map_append,
      hApdef, hCpdef, hBfull, charIndicesFrom_map_snd]
  -- the head piece is a nonempty list of characters of `a`
  have hApchars : ∀ c ∈ Ap, c ∈ a := by
    intro c hc
    rw [← hApdef] at hc
    obtain ⟨x, hx, rfl⟩ := List.mem_map.mp hc
    exact (mem_charIndicesFrom (List.mem_filter.mp hx).1).2.2
  have hApne : Ap ≠ [] := by
    rw [← hApdef]
    have hin : pr ∈ (charIndicesFrom 0 a).filter
        (fun p => decide (pr.1 ≤ p.1) && decide (p.1 < ep)) := by
      rw [List.mem_filter]
      refine ⟨hprA, ?_⟩
      simp only [Bool.and_eq_true, decide_eq_true_eq]
      omega
    exact List.ne_nil_of_mem (List.mem_map_of_mem _ hin)
  have hAplen : Ap.length < a.length := by
    rw [← hApdef, List.length_map]
    have hlt : (((charIndicesFrom 0 a)).filter
        (fun p => decide (pr.1 ≤ p.1) && decide (p.1 < ep))).length <
        (charIndicesFrom 0 a).length := by
      rw [List.length_filter_lt_length_iff_exists]
      obtain ⟨c0, hc0⟩ := head_mem_charIndicesFrom 0 hane
      refine ⟨(0, c0), hc0, ?_⟩
      show ¬((decide (pr.1 ≤ 0) && decide ((0 : Nat) < ep)) = true)
      simp only [Bool.and_eq_true, decide_eq_true_eq, not_and]
      intro hle
      omega
    rw [charIndicesFrom_length] at hlt
    exact hlt
  -- the tail piece is a nonempty list of characters of `b`
  have hCpchars : ∀ c ∈ Cp, c ∈ b := by
    intro c hc
    rw [← hCpdef] at hc
    obtain ⟨x, hx, rfl⟩ := List.mem_map.mp hc
    exact (mem_charIndicesFrom (List.mem_filter.mp hx).1).2.2
  have hCpne : Cp ≠ [] := by
    rw [← hCpdef]
    obtain ⟨b0, hb0⟩ := head_mem_charIndicesFrom (byteLen a + byteLen q) hbne
    have hin : (byteLen a + byteLen q, b0) ∈ (charIndicesFrom (byteLen a + byteLen q) b).filter
        (fun p => decide (pr.1 ≤ p.1) && decide (p.1 < ep)) := by
      rw [List.mem_filter]
      refine ⟨hb0, ?_⟩
      show (decide (pr.1 ≤ byteLen a + byteLen q) && decide (byteLen a + byteLen q < ep)) = true
      simp only [Bool.and_eq_true, decide_eq_true_eq]
      omega
    exact List.ne_nil_of_mem (List.mem_map_of_mem _ hin)
  have hCplen : Cp.length ≤ b.length := by
    rw [← hCpdef, List.length_map]
    calc ((charIndicesFrom (byteLen a + byteLen q) b).filter
          (fun p => decide (pr.1 ≤ p.1) && decide (p.1 < ep))).length
        ≤ (charIndicesFrom (byteLen a + byteLen q) b).length := List.length_filter_le _ _
      _ = b.length := charIndicesFrom_length _ _
  -- the slice is whitespace-free at both ends, so trimming fixes it
  have hhead : ∀ c ∈ (Ap ++ (q ++ Cp)).head?, isRustWhitespace c = false := by
    intro c hc
    rw [List.head?_append_of_ne_nil _ hApne] at hc
    exact hwa c (hApchars c (List.mem_of_mem_head? hc))
  have hlast : ∀ c ∈ (Ap ++ (q ++ Cp)).getLast?, isRustWhitespace c = false := by
    intro c hc
    rw [List.getLast?_append, List.getLast?_append] at hc
    obtain ⟨d, hd⟩ := Option.isSome_iff_exists.mp (List.getLast?_isSome.mpr hCpne)
    rw [hd, Option.or_some, Option.or_some] at hc
    have hdc : d = c := by simpa using hc
    rw [hdc] at hd
    exact hwb c (hCpchars c (List.mem_of_getLast?_eq_some hd))
  have htrim : rustTrim (Ap ++ (q ++ Cp)) = Ap ++ (q ++ Cp) :=
    rustTrim_eq_self _ hhead hlast
  have hctx : get_context_around_query (a ++ (q ++ b)) (byteLen a) (byteLen q) =
      rustTrim (byteSlice (a ++ (q ++ b))
        (startPos (a ++ (q ++ b)) (byteLen a - BOUND_OFFSET))
        (endPos (a ++ (q ++ b)) (byteLen a + byteLen q)
          (byteLen a + byteLen q + BOUND_OFFSET))) := rfl
  rw [hBO, hsp, hepdef, hslice, htrim] at hctx
  refine ⟨?_, ?_⟩
  · rw [hctx]
    exact ⟨Ap, Cp, List.append_assoc Ap q Cp⟩
  · rw [hctx]
    simp only [List.length_append]
    omega

/-- C1: the context extractor uses the fixed half-width `(80-6-8)/2 = 33` on
each side of the matched span; for every line, match index and query length
the slice's lower bound is clamped down and its upper bound up to UTF-8
character boundaries, both within the line's bounds and ordered (so the Rust
byte-slice `html_line[start_pos..end_pos]` cannot panic), and the result is
whitespace-trimmed at both ends; and for a line whose whitespace-free filler
exceeds the half-width on both sides of the match, the context contains the
full query substring and is strictly shorter than the line. -/
theorem c1_get_context_around_query :
    BOUND_OFFSET = 33 ∧
    (∀ (html_line : Str) (index query_len : Nat),
        IsCharBoundary html_line (startPos html_line (index - BOUND_OFFSET)) ∧
        IsCharBoundary html_line
          (endPos html_line (index + query_len) (index + query_len + BOUND_OFFSET)) ∧
        startPos html_line (index - BOUND_OFFSET) ≤
          endPos html_line (index + query_len) (index + query_len + BOUND_OFFSET) ∧
        endPos html_line (index + query_len) (index + query_len + BOUND_OFFSET) ≤
          byteLen html_line ∧
        (∀ c ∈ (get_context_around_query html_line index query_len).head?,
            isRustWhitespace c = false) ∧
        (∀ c ∈ (get_context_around_query html_line index query_len).getLast?,
            isRustWhitespace c = false)) ∧
    (∀ a q b : Str,
        (∀ c ∈ a, isRustWhitespace c = false) →
        (∀ c ∈ b, isRustWhitespace c = false) →
        33 < a.length → 33 < b.length →
        q <:+: get_context_around_query (a ++ (q ++ b)) (byteLen a) (byteLen q) ∧
        (get_context_around_query (a ++ (q ++ b)) (byteLen a) (byteLen q)).length <
          (a ++ (q ++ b)).length) := by
  refine ⟨rfl, ?_, context_window_wide_filler⟩
  intro s i l
  obtain ⟨h1, h2, h3⟩ := startPos_le s (i - BOUND_OFFSET)
  obtain ⟨h4, h5, h6⟩ := endPos_cases s (i + l) (i + l + BOUND_OFFSET)
  refine ⟨h3, h5, ?_, h4, rustTrim_head _, rustTrim_getLast _⟩
  rcases h6 with h6 | h6 <;> omega

/-- Witness for C1 on the spec's own example shape: 34 `a`s, the needle, 34
`b`s. -/
theorem c1_witness :
    "NEEDLE".data <:+: get_context_around_query
        (List.replicate 34 'a' ++ ("NEEDLE".data ++ List.replicate 34 'b'))
        (byteLen (List.replicate 34 'a')) (byteLen "NEEDLE".data) ∧
      (get_context_around_query
        (List.replicate 34 'a' ++ ("NEEDLE".data ++ List.replicate 34 'b'))
        (byteLen (List.replicate 34 'a')) (byteLen "NEEDLE".data)).length <
      (List.replicate 34 'a' ++ ("NEEDLE".data ++ List.replicate 34 'b')).length :=
  c1_get_context_around_query.2.2 (List.replicate 34 'a') "NEEDLE".data
    (List.replicate 34 'b') (by decide) (by decide) (by decide) (by decide)

/-! ### Content search: `search_docset_precisely`, `search.rs` lines 265–381 -/

/-- Modelled from the spec: `DOC_PAGE_EXTENSION` lives in the crate's
`common` module, absent from the sources; the spec calls it "the docset's
page-file extension".  No claim depends on its concrete value; `.html` is
used. -/
def DOC_PAGE_EXTENSION : Str := ".html".data

/-- Rust `str::ends_with(&str)` (line 309). -/
def strEndsWith (s pat : Str) : Bool := pat.isSuffixOf s

/-- Rust `str::find(&str)` (line 348): byte index of the first occurrence of
`needle`, the position accumulator made explicit (a match of valid UTF-8
always starts on a character boundary). -/
def strFindFrom (needle : Str) : Nat → Str → Option Nat
  | acc, [] => if needle.isEmpty then some acc else none
  | acc, c :: t =>
      if needle.isPrefixOf (c :: t) then some acc
      else strFindFrom needle (acc + c.utf8Size) t

def strFind (hay needle : Str) : Option Nat := strFindFrom needle 0 hay

/-- Rust `Path::with_extension("")` on a file name: drop the part after the
final `.`, unless there is no `.` or the only relevant `.` is the leading
character (a dot-file has no extension). -/
def stripExtension (name : Str) : Str :=
  match name.reverse.dropWhile (fun c => decide (c ≠ '.')) with
  | [] => name
  | [_] => name
  | _ :: stemRev => stemRev.reverse

/-- `search.rs` lines 254–263, `convert_path_to_item`: the path relative to
the docset root — here its directory components plus the file name — with
the extension stripped, rendered with `/` separators (the display form of a
relative `PathBuf` on the target platform). -/
def convert_path_to_item (relPath : List Str) (file_name : Str) : Str :=
  List.intercalate "/".data (relPath ++ [stripExtension file_name])

/-- One node of the docset tree as `visit_dir_with_query` observes it.
On a directory, `readable` models whether `read_dir` succeeds.  On a file,
`openable` models whether `File::open` succeeds, `lines` are the lines
`read_line` successfully yields (with their terminating newline, as in the
Rust), and `readStopped` records that `read_line` then returned an error
rather than end-of-file — the `while let Ok(..)` loop at line 337 exits
silently in both cases, so the flag is observable nowhere in the code. -/
inductive FsNode where
  | file (name : Str) (openable : Bool) (lines : List Str) (readStopped : Bool)
  | dir (name : Str) (readable : Bool) (entries : List FsNode)

/-- The errors `visit_dir_with_query` aborts with, each carrying the
offending path (as docset-root-relative components) its `format!` message
interpolates: `readDir` for a failed `read_dir` (line 287), `openFile` for a
failed `File::open` (line 327). -/
inductive WalkError where
  | readDir (path : List Str)
  | openFile (path : List Str)
deriving DecidableEq

/-- Lines 332–355: the per-line scan of an opened file, in read order.  Each
line is searched — on its lowercased copy when `case_insensitive` — for the
query, and the first occurrence's byte index yields one context computed on
the original line.  `query` is the already case-folded internal query, its
byte length standing in for `query_len` of line 330. -/
def scanLines (query : Str) (case_insensitive : Bool) : List Str → List Str
  | [] => []
  | line :: rest =>
      let display_context := if case_insensitive then to_lowercase line else line
      match strFind display_context query with
      | some index =>
          get_context_around_query line index (byteLen query) ::
            scanLines query case_insensitive rest
      | none => scanLines query case_insensitive rest

mutual

/-- `search.rs` lines 290–363: the body of the `for entry in dir` loop for a
single entry.  A directory is recursed into first (its `read_dir` failure
aborting the walk), after which control falls through to the same
file-name logic every entry gets: entries without the page extension are
skipped; a (case-folded) name containing the query yields one exact result
and the contents are never opened; otherwise the file is opened (failure
aborts) and scanned, yielding one vague result exactly when some line
matched.  `File::open` on a directory succeeds on Linux but its first
`read_line` fails, which the loop treats as end of input — hence the
directory fall-through produces no vague result. -/
def visitEntry (query : Str) (case_insensitive : Bool) (relPath : List Str) :
    FsNode → Except WalkError (List ExactResult × List VagueResult)
  | .file name openable lines _readStopped =>
      if !(strEndsWith name DOC_PAGE_EXTENSION) then .ok ([], [])
      else
        let file_name := if case_insensitive then to_lowercase name else name
        if strContains file_name query then
          .ok ([{ item := convert_path_to_item relPath name, fragment := none }], [])
        else if !openable then .error (.openFile (relPath ++ [name]))
        else
          let contexts := scanLines query case_insensitive lines
          if contexts.isEmpty then .ok ([], [])
          else .ok ([], [{ item := convert_path_to_item relPath name, contexts := contexts }])
  | .dir name readable entries =>
      if !readable then .error (.readDir (relPath ++ [name]))
      else
        match visitEntries query case_insensitive (relPath ++ [name]) entries with
        | .error e => .error e
        | .ok (e₁, v₁) =>
            if !(strEndsWith name DOC_PAGE_EXTENSION) then .ok (e₁, v₁)
            else
              let file_name := if case_insensitive then to_lowercase name else name
              if strContains file_name query then
                .ok (e₁ ++ [{ item := convert_path_to_item relPath name, fragment := none }], v₁)
              else .ok (e₁, v₁)

/-- The `for entry in dir` loop over a directory's entries in read order,
concatenating each entry's contributions. -/
def visitEntries (query : Str) (case_insensitive : Bool) (relPath : List Str) :
    List FsNode → Except WalkError (List ExactResult × List VagueResult)
  | [] => .ok ([], [])
  | node :: rest =>
      match visitEntry query case_insensitive relPath node with
      | .error e => .error e
      | .ok (e₁, v₁) =>
          match visitEntries query case_insensitive relPath rest with
          | .error e => .error e
          | .ok (e₂, v₂) => .ok (e₁ ++ e₂, v₁ ++ v₂)

end

/-- The docset root directory: `readable` models whether the initial
`read_dir(docset_path)` succeeds (the root's name never enters the
file-name logic — only its entries are visited). -/
structure DocsetDir where
  readable : Bool
  entries : List FsNode

/-- `search.rs` lines 265–381, `search_docset_precisely`: case-fold the query
when `case_insensitive`, walk the docset tree, then sort both result lists
(`sort_unstable` with the derived orders; stability cannot matter for the
sortedness and multiset claims, so `mergeSort` models it). -/
def search_docset_precisely (root : DocsetDir) (query : Str) (case_insensitive : Bool) :
    Except WalkError (List ExactResult × List VagueResult) :=
  let internal_query := if case_insensitive then to_lowercase query else query
  if !root.readable then .error (.readDir [])
  else
    match visitEntries internal_query case_insensitive [] root.entries with
    | .error e => .error e
    | .ok (exact_files, vague_results) =>
        .ok (exact_files.mergeSort exactLe, vague_results.mergeSort vagueLe)

theorem strFindFrom_some {needle : Str} :
    ∀ {acc : Nat} {hay : Str} {i : Nat}, strFindFrom needle acc hay = some i →
      ∃ pre post, hay = pre ++ (needle ++ post) ∧ acc + byteLen pre = i := by
  intro acc hay
  induction hay generalizing acc with
  | nil =>
      intro i h
      unfold strFindFrom at h
      by_cases he : needle.isEmpty
      · rw [if_pos he] at h
        refine ⟨[], [], by simp [List.isEmpty_iff.mp he], ?_⟩
        simpa [byteLen] using Option.some.inj h
      · rw [if_neg he] at h
        exact absurd h (by simp)
  | cons c t ih =>
      intro i h
      unfold strFindFrom at h
      by_cases hp : needle.isPrefixOf (c :: t)
      · rw [if_pos hp] at h
        obtain ⟨post, hpost⟩ := List.isPrefixOf_iff_prefix.mp hp
        refine ⟨[], post, by simp [hpost], ?_⟩
        simpa [byteLen] using Option.some.inj h
      · rw [if_neg hp] at h
        obtain ⟨pre, post, hsp, hlen⟩ := ih h
        refine ⟨c :: pre, post, by rw [List.cons_append, hsp], ?_⟩
        rw [byteLen_cons]
        omega

theorem strFindFrom_decomp {needle : Str} :
    ∀ (acc : Nat) (pre post : Str),
      ∃ i, strFindFrom needle acc (pre ++ (needle ++ post)) = some i ∧
        i ≤ acc + byteLen pre := by
  intro acc pre
  induction pre generalizing acc with
  | nil =>
      intro post
      refine ⟨acc, ?_, by simp⟩
      simp only [List.nil_append]
      cases hn : needle ++ post with
      | nil =>
          have hne : needle.isEmpty = true := by
            cases needle with
            | nil => rfl
            | cons a b => simp at hn
          unfold strFindFrom
          rw [if_pos hne]
      | cons c t =>
          have hp : needle.isPrefixOf (c :: t) = true := by
            rw [List.isPrefixOf_iff_prefix, ← hn]
            exact ⟨post, rfl⟩
          unfold strFindFrom
          rw [if_pos hp]
  | cons c pre' ih =>
      intro post
      simp only [List.cons_append]
      by_cases hp : needle.isPrefixOf (c :: (pre' ++ (needle ++ post)))
      · refine ⟨acc, ?_, by simp⟩
        unfold strFindFrom
        rw [if_pos hp]
      · obtain ⟨i, hi, hle⟩ := ih (acc + c.utf8Size) post
        refine ⟨i, ?_, ?_⟩
        · unfold strFindFrom
          rw [if_neg hp]
          exact hi
        · rw [byteLen_cons]
          omega

/-- `str::find` returns the byte position of the first occurrence: the hay
splits there, and every other occurrence starts no earlier. -/
theorem strFind_first {hay needle : Str} {i : Nat} (h : strFind hay needle = some i) :
    ∃ pre post, hay = pre ++ (needle ++ post) ∧ byteLen pre = i ∧
      ∀ pre' post', hay = pre' ++ (needle ++ post') → i ≤ byteLen pre' := by
  obtain ⟨pre, post, hdec, hlen⟩ := strFindFrom_some h
  refine ⟨pre, post, hdec, by omega, ?_⟩
  intro pre' post' hdec'
  obtain ⟨i', hi', hle'⟩ := @strFindFrom_decomp needle 0 pre' post'
  rw [← hdec'] at hi'
  have hii : strFindFrom needle 0 hay = some i := h
  rw [hii] at hi'
  have := Option.some.inj hi'
  omega

theorem scanLines_eq (query : Str) (ci : Bool) (lines : List Str) :
    scanLines query ci lines =
      (lines.filter fun line =>
          (strFind (if ci then to_lowercase line else line) query).isSome).map
        fun line =>
          get_context_around_query line
            ((strFind (if ci then to_lowercase line else line) query).getD 0)
            (byteLen query) := by
  induction lines with
  | nil => rfl
  | cons l rest ih =>
      show (match strFind (if ci then to_lowercase l else l) query with
        | some index =>
            get_context_around_query l index (byteLen query) :: scanLines query ci rest
        | none => scanLines query ci rest) = _
      cases hf : strFind (if ci then to_lowercase l else l) query with
      | none => simp [List.filter_cons, hf, ih]
      | some i => simp [List.filter_cons, hf, ih]

/-- C5: inside the content walk, a page file whose (case-folded) name
contains the query yields exactly one fragment-free `ExactResult` whose item
is the docset-relative path with the extension stripped, independently of the
file's contents and readability (no content scan); otherwise the opened file
contributes one context per line containing the query — in read order,
computed at the first occurrence in that line — and yields one `VagueResult`
exactly when at least one line matched. -/
theorem c5_visit_file (query : Str) (ci : Bool) (relPath : List Str) (name : Str)
    (openable : Bool) (lines : List Str) (readStopped : Bool)
    (hext : strEndsWith name DOC_PAGE_EXTENSION = true) :
    (strContains (if ci then to_lowercase name else name) query = true →
      visitEntry query ci relPath (.file name openable lines readStopped) =
        .ok ([{ item := convert_path_to_item relPath name, fragment := none }], []) ∧
      (∀ (openable' : Bool) (lines' : List Str) (readStopped' : Bool),
        visitEntry query ci relPath (.file name openable lines readStopped) =
          visitEntry query ci relPath (.file name openable' lines' readStopped'))) ∧
    (strContains (if ci then to_lowercase name else name) query = false →
      openable = true →
      visitEntry query ci relPath (.file name openable lines readStopped) =
        .ok ([],
          if (scanLines query ci lines).isEmpty then []
          else [{ item := convert_path_to_item relPath name,
                  contexts := scanLines query ci lines }]) ∧
      scanLines query ci lines =
        (lines.filter fun line =>
            (strFind (if ci then to_lowercase line else line) query).isSome).map
          (fun line =>
            get_context_around_query line
              ((strFind (if ci then to_lowercase line else line) query).getD 0)
              (byteLen query)) ∧
      (∀ (line : Str) (i : Nat),
        strFind (if ci then to_lowercase line else line) query = some i →
        ∃ pre post, (if ci then to_lowercase line else line) = pre ++ (query ++ post) ∧
          byteLen pre = i ∧
          ∀ pre' post',
            (if ci then to_lowercase line else line) = pre' ++ (query ++ post') →
              i ≤ byteLen pre')) := by
  constructor
  · intro hc
    constructor
    · simp only [visitEntry, hext, Bool.not_true, Bool.false_eq_true, if_false, hc, if_true]
    · intro op' lines' rs'
      simp only [visitEntry, hext, Bool.not_true, Bool.false_eq_true, if_false, hc, if_true]
  · intro hc hop
    subst hop
    refine ⟨?_, scanLines_eq query ci lines, fun line i h => strFind_first h⟩
    simp only [visitEntry, hext, Bool.not_true, Bool.false_eq_true, if_false, hc,
      Bool.not_true, if_true]
    split <;> rfl

/-- Witness for C5 on a file whose body (but not name) matches. -/
theorem c5_witness :
    (strContains (if false then to_lowercase "beta.html".data else "beta.html".data)
        "foo".data = true →
      visitEntry "foo".data false [] (.file "beta.html".data true ["xx foo yy\n".data] false) =
        .ok ([{ item := convert_path_to_item [] "beta.html".data, fragment := none }], []) ∧
      (∀ (openable' : Bool) (lines' : List Str) (readStopped' : Bool),
        visitEntry "foo".data false []
            (.file "beta.html".data true ["xx foo yy\n".data] false) =
          visitEntry "foo".data false [] (.file "beta.html".data openable' lines' readStopped'))) ∧
    (strContains (if false then to_lowercase "beta.html".data else "beta.html".data)
        "foo".data = false →
      true = true →
      visitEntry "foo".data false [] (.file "beta.html".data true ["xx foo yy\n".data] false) =
        .ok ([],
          if (scanLines "foo".data false ["xx foo yy\n".data]).isEmpty then []
          else [{ item := convert_path_to_item [] "beta.html".data,
                  contexts := scanLines "foo".data false ["xx foo yy\n".data] }]) ∧
      scanLines "foo".data false ["xx foo yy\n".data] =
        (["xx foo yy\n".data].filter fun line =>
            (strFind (if false then to_lowercase line else line) "foo".data).isSome).map
          (fun line =>
            get_context_around_query line
              ((strFind (if false then to_lowercase line else line) "foo".data).getD 0)
              (byteLen "foo".data)) ∧
      (∀ (line : Str) (i : Nat),
        strFind (if false then to_lowercase line else line) "foo".data = some i →
        ∃ pre post, (if false then to_lowercase line else line) = pre ++ ("foo".data ++ post) ∧
          byteLen pre = i ∧
          ∀ pre' post',
            (if false then to_lowercase line else line) = pre' ++ ("foo".data ++ post') →
              i ≤ byteLen pre')) :=
  c5_visit_file "foo".data false [] "beta.html".data true ["xx foo yy\n".data] false (by decide)

mutual

/-- The walk of this node hits no aborting error: every directory is
readable, and every file that gets opened — page extension, (case-folded)
name not containing the query — is openable.  `readStopped` does not occur
here: an error from `read_line` after a successful open never aborts. -/
def nodeOk (query : Str) (ci : Bool) : FsNode → Bool
  | .file name openable _ _ =>
      !(strEndsWith name DOC_PAGE_EXTENSION) ||
        strContains (if ci then to_lowercase name else name) query || openable
  | .dir _ readable entries => readable && nodesOk query ci entries

def nodesOk (query : Str) (ci : Bool) : List FsNode → Bool
  | [] => true
  | n :: rest => nodeOk query ci n && nodesOk query ci rest

end

mutual

theorem visitEntry_ok_iff (query : Str) (ci : Bool) (relPath : List Str) :
    ∀ n : FsNode,
      (∃ r, visitEntry query ci relPath n = .ok r) ↔ nodeOk query ci n = true
  | .file name op lines rs => by
      simp only [visitEntry, nodeOk]
      by_cases hext : strEndsWith name DOC_PAGE_EXTENSION
      · by_cases hc : strContains (if ci then to_lowercase name else name) query
        · simp [hext, hc]
        · by_cases hop : op
          · subst hop
            simp only [hext, Bool.not_true, Bool.false_eq_true, if_false, hc,
              Bool.not_false, if_true, Bool.false_or]
            constructor
            · intro
              simp
            · intro
              split <;> exact ⟨_, rfl⟩
          · simp [hext, hc, hop]
      · simp [hext]
  | .dir name readable entries => by
      simp only [visitEntry, nodeOk]
      by_cases hr : readable
      · subst hr
        simp only [Bool.not_true, Bool.false_eq_true, if_false, Bool.true_and]
        cases he : visitEntries query ci (relPath ++ [name]) entries with
        | error e =>
            have hiff := visitEntries_ok_iff query ci (relPath ++ [name]) entries
            rw [he] at hiff
            simp only [reduceCtorEq, exists_false, false_iff] at hiff
            simp [hiff]
        | ok p =>
            have hiff := visitEntries_ok_iff query ci (relPath ++ [name]) entries
            rw [he] at hiff
            have hok : nodesOk query ci entries = true := hiff.mp ⟨p, rfl⟩
            rw [hok]
            obtain ⟨e₁, v₁⟩ := p
            simp only [iff_true]
            split
            · exact ⟨_, rfl⟩
            · split <;> split <;> exact ⟨_, rfl⟩
      · simp [hr]

theorem visitEntries_ok_iff (query : Str) (ci : Bool) (relPath : List Str) :
    ∀ l : List FsNode,
      (∃ r, visitEntries query ci relPath l = .ok r) ↔ nodesOk query ci l = true
  | [] => by simp [visitEntries, nodesOk]
  | n :: rest => by
      simp only [visitEntries, nodesOk, Bool.and_eq_true]
      cases hn : visitEntry query ci relPath n with
      | error e =>
          have hiff := visitEntry_ok_iff query ci relPath n
          rw [hn] at hiff
          simp only [reduceCtorEq, exists_false, false_iff] at hiff
          simp [hiff]
      | ok p =>
          have hiff := visitEntry_ok_iff query ci relPath n
          rw [hn] at hiff
          have hok : nodeOk query ci n = true := hiff.mp ⟨p, rfl⟩
          rw [hok]
          obtain ⟨e₁, v₁⟩ := p
          cases hrest : visitEntries query ci relPath rest with
          | error e =>
              have hiff' := visitEntries_ok_iff query ci relPath rest
              rw [hrest] at hiff'
              simp only [reduceCtorEq, exists_false, false_iff] at hiff'
              simp [hiff']
          | ok p' =>
              have hiff' := visitEntries_ok_iff query ci relPath rest
              rw [hrest] at hiff'
              have hok' : nodesOk query ci rest = true := hiff'.mp ⟨p', rfl⟩
              rw [hok']
              obtain ⟨e₂, v₂⟩ := p'
              simp

end

instance {ε α : Type} [DecidableEq ε] [DecidableEq α] : DecidableEq (Except ε α)
  | .error a, .error b =>
      if h : a = b then .isTrue (by rw [h]) else .isFalse (fun hc => h (Except.error.inj hc))
  | .error _, .ok _ => .isFalse (fun hc => Except.noConfusion hc)
  | .ok _, .error _ => .isFalse (fun hc => Except.noConfusion hc)
  | .ok a, .ok b =>
      if h : a = b then .isTrue (by rw [h]) else .isFalse (fun hc => h (Except.ok.inj hc))

/-- C8 counterexample: a docset holding one readable directory with one page
file that opens fine but whose very first `read_line` fails (`readStopped`,
e.g. `File::open` on a directory named `b.html`, which succeeds on Linux
while reading fails).  The claim says any file-read error encountered during
the walk aborts the whole search with an I/O error; the code's
`while let Ok(..)` loop at line 337 swallows the error and the search
succeeds. -/
theorem c8_counterexample :
    search_docset_precisely ⟨true, [.file "b.html".data true [] true]⟩ "x".data false =
        .ok ([], []) ∧
      ∀ e : WalkError,
        search_docset_precisely ⟨true, [.file "b.html".data true [] true]⟩ "x".data false ≠
          .error e := by
  have hok : search_docset_precisely ⟨true, [.file "b.html".data true [] true]⟩ "x".data
      false = .ok ([], []) := by
    show Except.ok ((([] ++ [] : List ExactResult)).mergeSort exactLe,
      (([] ++ [] : List VagueResult)).mergeSort vagueLe) = Except.ok ([], [])
    simp
  refine ⟨hok, ?_⟩
  intro e h
  rw [hok] at h
  exact absurd h (by simp)

/-- C8 (amended): the content search aborts — with an error value carrying
the offending path — exactly when the tree holds a directory whose
`read_dir` fails or a page file that must be opened (extension matching,
case-folded name not containing the query) whose `File::open` fails; those
errors are never skipped, and no result set is produced then.  An error from
`read_line` on an already-open file does not abort: the loop treats it as
end of input. -/
theorem c8_walk_abort_iff (root : DocsetDir) (query : Str) (ci : Bool) :
    (∃ r, search_docset_precisely root query ci = .ok r) ↔
      (root.readable = true ∧
        nodesOk (if ci then to_lowercase query else query) ci root.entries = true) := by
  unfold search_docset_precisely
  by_cases hr : root.readable
  · simp only [hr, Bool.not_true, Bool.false_eq_true, if_false, true_and]
    cases he : visitEntries (if ci then to_lowercase query else query) ci [] root.entries with
    | error e =>
        have hiff := visitEntries_ok_iff (if ci then to_lowercase query else query) ci []
          root.entries
        rw [he] at hiff
        simp only [reduceCtorEq, exists_false, false_iff] at hiff
        simp [hiff]
    | ok p =>
        have hiff := visitEntries_ok_iff (if ci then to_lowercase query else query) ci []
          root.entries
        rw [he] at hiff
        have hok := hiff.mp ⟨p, rfl⟩
        rw [hok]
        obtain ⟨e₁, v₁⟩ := p
        simp
  · simp [hr]

/-! ### Presentation and selection: `search_impl`, `search.rs` lines 435–578 -/

/-- Rust `str::parse::<usize>()` (lines 450 and 453): an optional leading `+`
followed by at least one ASCII digit, rejecting anything else and values
that overflow 64 bits. -/
def parseUsize (s : Str) : Option Nat :=
  let digits :=
    match s with
    | '+' :: rest => rest
    | _ => s
  if digits.isEmpty then none
  else if digits.all (fun c => c.isDigit) then
    let v := digits.foldl (fun acc c => acc * 10 + (c.toNat - '0'.toNat)) 0
    if v < 2 ^ 64 then some v else none
  else none

/-- The warnings `search_impl` pushes, one per `format!` message, carrying
the interpolated data. -/
inductive Warning where
  | invalidColumns
  | openOutOfBounds (n : Nat)
  | openRequiresNumber
deriving DecidableEq

/-- What `search_impl` does after handling `--open`: hand one page to
`print_page_from_docset` and return early without printing the listing, or
fall through to printing the listing.  `panicked` models an out-of-bounds
`Vec` index — the claims prove it unreachable. -/
inductive Outcome where
  | opened (docset : Str) (item : Str) (fragment : Option Str) (width : Nat)
  | listed
  | panicked
deriving DecidableEq

/-- Lines 451–462: the display width and the possible column warning
(`get_terminal_width` is a collaborator; its value is the parameter). -/
def computeWidth (terminal_width : Nat) (flag_columns : Str) : Nat × List Warning :=
  match parseUsize flag_columns with
  | some col_number =>
      if col_number = 0 then (999, [])
      else if col_number > 10 then (col_number, [])
      else (terminal_width, [])
  | none =>
      if flag_columns.isEmpty then (terminal_width, [])
      else (terminal_width, [.invalidColumns])

/-- Lines 489–513: `--open` resolution in precise mode, over the (possibly
cached) exact and vague result lists. -/
def resolveOpenPrecise (docset : Str) (flags : SearchFlags) (width : Nat)
    (exact_results : List ExactResult) (vague_results : List VagueResult)
    (flag_open : Str) : List Warning × Outcome :=
  if flag_open.isEmpty then ([], .listed)
  else
    match parseUsize flag_open with
    | some n =>
        if n < 1 ∨ n > exact_results.length + vague_results.length then
          ([.openOutOfBounds n], .listed)
        else if n ≤ exact_results.length then
          match exact_results[n - 1]? with
          | some result =>
              ([], .opened docset result.item
                (if flags.ignore_fragment then none else result.fragment) width)
          | none => ([], .panicked)
        else
          match vague_results[n - exact_results.length - 1]? with
          | some result => ([], .opened docset result.item none width)
          | none => ([], .panicked)
    | none => ([.openRequiresNumber], .listed)

/-- Lines 548–567: `--open` resolution in filename (non-precise) mode, where
only exact results exist. -/
def resolveOpenFilenames (docset : Str) (flags : SearchFlags) (width : Nat)
    (results : List ExactResult) (flag_open : Str) : List Warning × Outcome :=
  if flag_open.isEmpty then ([], .listed)
  else
    match parseUsize flag_open with
    | some n =>
        if n < 1 ∨ n > results.length then ([.openOutOfBounds n], .listed)
        else
          match results[n - 1]? with
          | some result =>
              ([], .opened docset result.item
                (if flags.ignore_fragment then none else result.fragment) width)
          | none => ([], .panicked)
    | none => ([.openRequiresNumber], .listed)

/-- The state `search_impl` reads and writes: the two cache files, the
docset's manifest (filename mode) and its directory tree (precise mode). -/
structure World where
  cache : CacheState
  manifest : ManifestState
  tree : DocsetDir

inductive SearchImplError where
  | filename (e : FilenameSearchError)
  | walk (e : WalkError)
deriving DecidableEq

/-- `search.rs` lines 435–578, `search_impl`: compute the width, probe the
cache, on a miss run the engine of the active mode and store its results
(the store's own I/O failure would only add a warning and is not modelled),
resolve `--open`, else print the listing.  Returns the resulting cache
state, the collected warnings, and the outcome. -/
def search_impl (w : World) (search_options : SearchOptions)
    (flag_open flag_columns : Str) (terminal_width : Nat) :
    Except SearchImplError (CacheState × List Warning × Outcome) :=
  let wr := computeWidth terminal_width flag_columns
  if search_options.flags.precise then
    match try_use_cache w.cache search_options with
    | some cache =>
        let r := resolveOpenPrecise search_options.docset search_options.flags
          wr.1 cache.exact_results cache.vague_results flag_open
        .ok (w.cache, wr.2 ++ r.1, r.2)
    | none =>
        match search_docset_precisely w.tree search_options.query
            search_options.flags.case_insensitive with
        | .error e => .error (.walk e)
        | .ok (exact, vague) =>
            let r := resolveOpenPrecise search_options.docset search_options.flags
              wr.1 exact vague flag_open
            .ok (cache_search_results search_options ⟨exact, vague⟩, wr.2 ++ r.1, r.2)
  else
    match try_use_cache w.cache search_options with
    | some cache =>
        let r := resolveOpenFilenames search_options.docset search_options.flags
          wr.1 cache.exact_results flag_open
        .ok (w.cache, wr.2 ++ r.1, r.2)
    | none =>
        match search_docset_in_filenames search_options.docset w.manifest
            search_options.query search_options.flags.case_insensitive with
        | .error e => .error (.filename e)
        | .ok exact =>
            let r := resolveOpenFilenames search_options.docset search_options.flags
              wr.1 exact flag_open
            .ok (cache_search_results search_options ⟨exact, []⟩, wr.2 ++ r.1, r.2)

/-- `search.rs` lines 631–641: the query as the `search` command builds it —
the positional arguments joined with single spaces and, when `--whole` is
set, exactly one space inserted at index 0 and one pushed at the end. -/
def build_query (args : List Str) (flag_whole : Bool) : Str :=
  let merged_args := List.intercalate " ".data args
  if flag_whole then ' ' :: (merged_args ++ [' ']) else merged_args

/-- Lines 643–654: the `SearchOptions` the `search` command hands to
`search_impl` (and which fingerprints the cache). -/
def build_search_options (docset : Str) (args : List Str)
    (flag_precise flag_case_insensitive flag_whole flag_ignore_fragment : Bool) :
    SearchOptions :=
  { query := build_query args flag_whole
    docset := docset
    flags :=
      { precise := flag_precise
        case_insensitive := flag_case_insensitive
        whole := flag_whole
        ignore_fragment := flag_ignore_fragment } }

theorem vagueLe_item {r s : VagueResult} (h : vagueLe r s = true) : r.item ≤ s.item := by
  simp only [vagueLe, Bool.or_eq_true, Bool.and_eq_true, decide_eq_true_eq] at h
  rcases h with h | ⟨h, -⟩
  · exact le_of_lt h
  · exact le_of_eq h

theorem search_docset_in_filenames_sorted {dn : Str} {ms : ManifestState} {q : Str}
    {ci : Bool} {l : List ExactResult}
    (h : search_docset_in_filenames dn ms q ci = .ok l) :
    l.Pairwise (fun r s => exactLe r s = true) := by
  cases ms with
  | parsed entries =>
      rw [search_docset_in_filenames_parsed] at h
      have := Except.ok.inj h
      rw [← this]
      exact List.sorted_mergeSort exactLe_trans exactLe_total _
  | checkFailed => exact absurd h (by simp [search_docset_in_filenames])
  | absent => exact absurd h (by simp [search_docset_in_filenames])
  | unreadable => exact absurd h (by simp [search_docset_in_filenames])
  | unparsable => exact absurd h (by simp [search_docset_in_filenames])

theorem search_docset_precisely_sorted {root : DocsetDir} {q : Str} {ci : Bool}
    {e : List ExactResult} {v : List VagueResult}
    (h : search_docset_precisely root q ci = .ok (e, v)) :
    e.Pairwise (fun r s => exactLe r s = true) ∧
    v.Pairwise (fun r s => vagueLe r s = true) := by
  unfold search_docset_precisely at h
  by_cases hr : root.readable
  · rw [hr] at h
    simp only [Bool.not_true, Bool.false_eq_true, if_false] at h
    cases hv : visitEntries (if ci then to_lowercase q else q) ci [] root.entries with
    | error er => rw [hv] at h; exact absurd h (by simp)
    | ok p =>
        obtain ⟨e₀, v₀⟩ := p
        rw [hv] at h
        have := Except.ok.inj h
        have he : e₀.mergeSort exactLe = e := congrArg Prod.fst this
        have hvv : v₀.mergeSort vagueLe = v := congrArg Prod.snd this
        rw [← he, ← hvv]
        exact ⟨List.sorted_mergeSort exactLe_trans exactLe_total _,
          List.sorted_mergeSort vagueLe_trans vagueLe_total _⟩
  · rw [Bool.not_eq_true] at hr
    rw [hr] at h
    exact absurd h (by simp)

theorem search_impl_miss_stores {w : World} {opts : SearchOptions} {fo fc : Str}
    {tw : Nat} {st : CacheState} {ws : List Warning} {oc : Outcome}
    (hmiss : try_use_cache w.cache opts = none)
    (himpl : search_impl w opts fo fc tw = .ok (st, ws, oc)) :
    st.cache_options = some opts ∧
    ∃ c, st.cache_payload = some c ∧
      c.exact_results.Pairwise (fun r s => exactLe r s = true) ∧
      c.vague_results.Pairwise (fun r s => vagueLe r s = true) := by
  unfold search_impl at himpl
  by_cases hp : opts.flags.precise = true
  · rw [if_pos hp, hmiss] at himpl
    cases hs : search_docset_precisely w.tree opts.query opts.flags.case_insensitive with
    | error er => rw [hs] at himpl; exact absurd himpl (by simp)
    | ok p =>
        obtain ⟨e, v⟩ := p
        rw [hs] at himpl
        have := Except.ok.inj himpl
        have hst : cache_search_results opts ⟨e, v⟩ = st := congrArg Prod.fst this
        obtain ⟨hse, hsv⟩ := search_docset_precisely_sorted hs
        rw [← hst]
        exact ⟨rfl, ⟨e, v⟩, rfl, hse, hsv⟩
  · rw [if_neg hp, hmiss] at himpl
    cases hs : search_docset_in_filenames opts.docset w.manifest opts.query
        opts.flags.case_insensitive with
    | error er => rw [hs] at himpl; exact absurd himpl (by simp)
    | ok e =>
        rw [hs] at himpl
        have := Except.ok.inj himpl
        have hst : cache_search_results opts ⟨e, []⟩ = st := congrArg Prod.fst this
        have hse := search_docset_in_filenames_sorted hs
        rw [← hst]
        exact ⟨rfl, ⟨e, []⟩, rfl, hse, List.Pairwise.nil⟩

/-- C7: every result list the two engines return is sorted ascending — exact
results by `(item, fragment)` with an absent fragment ordered before any
present one for the same item, vague results by `item` (indeed by the full
`(item, contexts)` derived order) — and on a cache miss the lists
`search_impl` caches are exactly the engine outputs, hence sorted as well;
nothing is ever returned or cached in bare traversal order. -/
theorem c7_sortedness :
    (∀ (dn : Str) (ms : ManifestState) (q : Str) (ci : Bool) (l : List ExactResult),
        search_docset_in_filenames dn ms q ci = .ok l →
          l.Pairwise (fun r s => exactLe r s = true)) ∧
    (∀ (root : DocsetDir) (q : Str) (ci : Bool) (e : List ExactResult)
        (v : List VagueResult),
        search_docset_precisely root q ci = .ok (e, v) →
          e.Pairwise (fun r s => exactLe r s = true) ∧
          v.Pairwise (fun r s => vagueLe r s = true) ∧
          v.Pairwise (fun r s => r.item ≤ s.item)) ∧
    (∀ i f : Str, exactLe ⟨i, none⟩ ⟨i, some f⟩ = true ∧
        exactLe ⟨i, some f⟩ ⟨i, none⟩ = false) ∧
    (∀ (w : World) (opts : SearchOptions) (fo fc : Str) (tw : Nat) (st : CacheState)
        (ws : List Warning) (oc : Outcome),
        try_use_cache w.cache opts = none →
        search_impl w opts fo fc tw = .ok (st, ws, oc) →
        ∃ c, st.cache_payload = some c ∧
          c.exact_results.Pairwise (fun r s => exactLe r s = true) ∧
          c.vague_results.Pairwise (fun r s => vagueLe r s = true)) := by
  refine ⟨?_, ?_, ?_, ?_⟩
  · intro dn ms q ci l h
    exact search_docset_in_filenames_sorted h
  · intro root q ci e v h
    obtain ⟨he, hv⟩ := search_docset_precisely_sorted h
    exact ⟨he, hv, hv.imp vagueLe_item⟩
  · intro i f
    constructor
    · simp [exactLe, fragLe]
    · simp [exactLe, fragLe]
  · intro w opts fo fc tw st ws oc hmiss himpl
    exact (search_impl_miss_stores hmiss himpl).2

/-- Witness for C7: the filename engine's output on a one-entry manifest is
sorted. -/
theorem c7_witness :
    ([⟨"vec.html".data, none⟩] : List ExactResult).Pairwise
      (fun r s => exactLe r s = true) := by
  have hf : ([⟨"Vec".data, "vec.html".data⟩] : List IndexEntry).filter
      (entryMatches "Vec".data false) = [⟨"Vec".data, "vec.html".data⟩] := by decide
  have hsearch : search_docset_in_filenames "d".data
      (.parsed [⟨"Vec".data, "vec.html".data⟩]) "Vec".data false =
      .ok [(⟨"vec.html".data, none⟩ : ExactResult)] := by
    rw [search_docset_in_filenames_parsed, hf]
    rw [show (([⟨"Vec".data, "vec.html".data⟩] : List IndexEntry).map
      fun e => exactOfPath e.path) = [(⟨"vec.html".data, none⟩ : ExactResult)] from by decide]
    rw [List.mergeSort_singleton]
  exact c7_sortedness.1 "d".data (.parsed [⟨"Vec".data, "vec.html".data⟩]) "Vec".data false
    [⟨"vec.html".data, none⟩] hsearch

/-- C6: selection resolution over `E` exact and `V` vague results.  An empty
`--open` skips resolution and prints the listing; a non-numeric value pushes
a warning and the listing is still printed; a numeric `N` outside `1..=E+V`
(outside `1..=E` in non-precise mode) pushes an out-of-bounds warning and
the listing is still printed; `N ∈ [1, E]` resolves — with the index access
in bounds — to the `N`-th exact result, whose fragment is dropped exactly
when `ignore_fragment` is set; `N ∈ (E, E+V]` resolves to the `(N-E)`-th
vague result with no fragment; successful resolutions hand the page to the
renderer instead of listing, and the vector indexing can never panic. -/
theorem c6_open_selection (docset : Str) (flags : SearchFlags) (width : Nat)
    (exact : List ExactResult) (vague : List VagueResult) (flag_open : Str) :
    (flag_open = [] →
      resolveOpenPrecise docset flags width exact vague flag_open = ([], .listed) ∧
      resolveOpenFilenames docset flags width exact flag_open = ([], .listed)) ∧
    (flag_open ≠ [] → parseUsize flag_open = none →
      resolveOpenPrecise docset flags width exact vague flag_open =
        ([.openRequiresNumber], .listed) ∧
      resolveOpenFilenames docset flags width exact flag_open =
        ([.openRequiresNumber], .listed)) ∧
    (∀ n : Nat, flag_open ≠ [] → parseUsize flag_open = some n →
      ((n < 1 ∨ n > exact.length + vague.length) →
        resolveOpenPrecise docset flags width exact vague flag_open =
          ([.openOutOfBounds n], .listed)) ∧
      ((n < 1 ∨ n > exact.length) →
        resolveOpenFilenames docset flags width exact flag_open =
          ([.openOutOfBounds n], .listed)) ∧
      (1 ≤ n → n ≤ exact.length →
        ∃ h : n - 1 < exact.length,
          resolveOpenPrecise docset flags width exact vague flag_open =
            ([], .opened docset (exact.get ⟨n - 1, h⟩).item
              (if flags.ignore_fragment then none else (exact.get ⟨n - 1, h⟩).fragment)
              width) ∧
          resolveOpenFilenames docset flags width exact flag_open =
            ([], .opened docset (exact.get ⟨n - 1, h⟩).item
              (if flags.ignore_fragment then none else (exact.get ⟨n - 1, h⟩).fragment)
              width)) ∧
      (exact.length < n → n ≤ exact.length + vague.length →
        ∃ h : n - exact.length - 1 < vague.length,
          resolveOpenPrecise docset flags width exact vague flag_open =
            ([], .opened docset (vague.get ⟨n - exact.length - 1, h⟩).item none width))) ∧
    ((resolveOpenPrecise docset flags width exact vague flag_open).2 ≠ .panicked ∧
      (resolveOpenFilenames docset flags width exact flag_open).2 ≠ .panicked) := by
  refine ⟨?_, ?_, ?_, ?_⟩
  · intro h
    subst h
    exact ⟨rfl, rfl⟩
  · intro hne hp
    have hie : flag_open.isEmpty = false := by
      cases flag_open with
      | nil => exact absurd rfl hne
      | cons c t => rfl
    unfold resolveOpenPrecise resolveOpenFilenames
    rw [hie, hp]
    exact ⟨rfl, rfl⟩
  · intro n hne hp
    have hie : flag_open.isEmpty = false := by
      cases flag_open with
      | nil => exact absurd rfl hne
      | cons c t => rfl
    refine ⟨?_, ?_, ?_, ?_⟩
    · intro hoob
      unfold resolveOpenPrecise
      rw [hie, hp]
      simp only [Bool.false_eq_true, if_false]
      rw [if_pos hoob]
    · intro hoob
      unfold resolveOpenFilenames
      rw [hie, hp]
      simp only [Bool.false_eq_true, if_false]
      rw [if_pos hoob]
    · intro h1 h2
      have hb : n - 1 < exact.length := by omega
      refine ⟨hb, ?_, ?_⟩
      · unfold resolveOpenPrecise
        rw [hie, hp]
        simp only [Bool.false_eq_true, if_false]
        rw [if_neg (by omega), if_pos h2, List.getElem?_eq_getElem hb]
        rfl
      · unfold resolveOpenFilenames
        rw [hie, hp]
        simp only [Bool.false_eq_true, if_false]
        rw [if_neg (by omega), List.getElem?_eq_getElem hb]
        rfl
    · intro h1 h2
      have hb : n - exact.length - 1 < vague.length := by omega
      refine ⟨hb, ?_⟩
      unfold resolveOpenPrecise
      rw [hie, hp]
      simp only [Bool.false_eq_true, if_false]
      rw [if_neg (by omega), if_neg (by omega), List.getElem?_eq_getElem hb]
      rfl
  · constructor
    · unfold resolveOpenPrecise
      split
      · simp
      · split
        · rename_i n hp
          by_cases hoob : (n < 1 ∨ n > exact.length + vague.length)
          · rw [if_pos hoob]
            simp
          · rw [if_neg hoob]
            by_cases hle : n ≤ exact.length
            · rw [if_pos hle]
              have hb : n - 1 < exact.length := by omega
              rw [List.getElem?_eq_getElem hb]
              simp
            · rw [if_neg hle]
              have hb : n - exact.length - 1 < vague.length := by omega
              rw [List.getElem?_eq_getElem hb]
              simp
        · simp
    · unfold resolveOpenFilenames
      split
      · simp
      · split
        · rename_i n hp
          by_cases hoob : (n < 1 ∨ n > exact.length)
          · rw [if_pos hoob]
            simp
          · rw [if_neg hoob]
            have hb : n - 1 < exact.length := by omega
            rw [List.getElem?_eq_getElem hb]
            simp
        · simp

/-- Witness for C6: `--open 1` on one exact result resolves in bounds, in
both modes. -/
theorem c6_witness :
    ∃ h : (1 : Nat) - 1 < ([⟨"a".data, none⟩] : List ExactResult).length,
      resolveOpenPrecise "d".data ⟨false, false, false, false⟩ 80
          [⟨"a".data, none⟩] [] "1".data =
        ([], .opened "d".data
          (([⟨"a".data, none⟩] : List ExactResult).get ⟨1 - 1, h⟩).item
          (if (⟨false, false, false, false⟩ : SearchFlags).ignore_fragment then none
            else (([⟨"a".data, none⟩] : List ExactResult).get ⟨1 - 1, h⟩).fragment) 80) ∧
      resolveOpenFilenames "d".data ⟨false, false, false, false⟩ 80
          [⟨"a".data, none⟩] "1".data =
        ([], .opened "d".data
          (([⟨"a".data, none⟩] : List ExactResult).get ⟨1 - 1, h⟩).item
          (if (⟨false, false, false, false⟩ : SearchFlags).ignore_fragment then none
            else (([⟨"a".data, none⟩] : List ExactResult).get ⟨1 - 1, h⟩).fragment) 80) :=
  ((c6_open_selection "d".data ⟨false, false, false, false⟩ 80
      [⟨"a".data, none⟩] [] "1".data).2.2.1 1 (by decide) (by decide)).2.2.1
    (by decide) (by decide)

/-- C10: with `--whole` set, the `search` command's query is the space-joined
arguments wrapped in exactly one leading and one trailing space; with it
unset, the space-joined arguments unchanged.  That same `SearchOptions` value
is what `search_impl` matches against and fingerprints the cache with: on a
miss the stored cache options equal it exactly. -/
theorem c10_whole_wraps_query (docset : Str) (args : List Str) (fp fci fif : Bool) :
    (build_search_options docset args fp fci true fif).query =
      ' ' :: (List.intercalate " ".data args ++ [' ']) ∧
    (build_search_options docset args fp fci false fif).query =
      List.intercalate " ".data args ∧
    (build_search_options docset args fp fci true fif).flags.whole = true ∧
    (build_search_options docset args fp fci false fif).flags.whole = false ∧
    (∀ (fw : Bool) (w : World) (fo fc : Str) (tw : Nat) (st : CacheState)
        (ws : List Warning) (oc : Outcome),
        try_use_cache w.cache (build_search_options docset args fp fci fw fif) = none →
        search_impl w (build_search_options docset args fp fci fw fif) fo fc tw =
          .ok (st, ws, oc) →
        st.cache_options = some (build_search_options docset args fp fci fw fif)) := by
  refine ⟨rfl, rfl, rfl, rfl, ?_⟩
  intro fw w fo fc tw st ws oc hmiss himpl
  exact (search_impl_miss_stores hmiss himpl).1

/-- Witness for C10: one concrete miss-path run of `search_impl` stores the
wrapped-query options. -/
theorem c10_witness :
    (cache_search_results (build_search_options "d".data ["x".data] false false true false)
        ⟨([] : List ExactResult).mergeSort exactLe, []⟩).cache_options =
      some (build_search_options "d".data ["x".data] false false true false) :=
  (c10_whole_wraps_query "d".data ["x".data] false false false).2.2.2.2 true
    ⟨⟨none, none⟩, .parsed [], ⟨true, []⟩⟩ [] [] 80
    (cache_search_results (build_search_options "d".data ["x".data] false false true false)
      ⟨([] : List ExactResult).mergeSort exactLe, []⟩) [] .listed rfl rfl

/-- Witness for C3 at a concrete option set and payload. -/
theorem c3_witness :
    ∃ c, try_use_cache
        (cache_search_results ⟨"q".data, "d".data, ⟨false, false, false, false⟩⟩ ⟨[], []⟩)
        ⟨"q".data, "d".data, ⟨false, false, false, false⟩⟩ = some c ∧
      c.exact_results = [] ∧ c.vague_results = [] :=
  c3_cache_round_trip ⟨"q".data, "d".data, ⟨false, false, false, false⟩⟩ [] []

/-- Witness for C9 at a concrete absent manifest. -/
theorem c9_witness :
    (search_docset_in_filenames "d".data .absent "q".data false =
        .error (.compatibility "d".data) ↔ ManifestState.absent = ManifestState.absent) ∧
    (search_docset_in_filenames "d".data .absent "q".data false =
        .error (.format "d".data) ↔ ManifestState.absent = ManifestState.unparsable) ∧
    (∀ l, search_docset_in_filenames "d".data .absent "q".data false = .ok l →
      ∃ entries, ManifestState.absent = ManifestState.parsed entries) :=
  c9_manifest_failure_policy "d".data .absent "q".data false

/-- Witness for C8's amended statement at a concrete (empty, readable)
docset. -/
theorem c8_witness :
    (∃ r, search_docset_precisely ⟨true, []⟩ "q".data false = .ok r) ↔
      ((⟨true, []⟩ : DocsetDir).readable = true ∧
        nodesOk (if false then to_lowercase "q".data else "q".data) false
          (⟨true, []⟩ : DocsetDir).entries = true) :=
  c8_walk_abort_iff ⟨true, []⟩ "q".data false

end Dedoc
